import Mathlib

/-!
Shallow embedding of the `experiment` Rust library (src/lib.rs, src/process.rs):
process descriptors, verbosity-controlled display, directory creation with an
overwrite policy, and the process-pipeline wiring engine, together with proofs
of the specified properties.

OS effects are made explicit: an anonymous pipe is identified by the `Nat`
index of its allocation; spawning a command is recorded in a spawn-order list;
running a command handle to completion is abstracted as a status oracle
`Cmd → σ`; the filesystem is a list of existing paths.
-/

namespace Experiment

/-- The `Verbosity` enum (src/lib.rs): `Brief(usize)` or `Verbose`. -/
inductive Verbosity where
  | Brief (maxArgs : Nat)
  | Verbose
deriving DecidableEq, Repr

/-- The `OverwritePolicy` enum (src/lib.rs): `Force` or `Fail`. -/
inductive OverwritePolicy where
  | Force
  | Fail
deriving DecidableEq, Repr

/-- Function `verbose_if` (src/lib.rs). -/
def verbose_if (verbose : Bool) (max_args : Nat) : Verbosity :=
  if verbose then .Verbose else .Brief max_args

/-- Function `force_if` (src/lib.rs). -/
def force_if (force : Bool) : OverwritePolicy :=
  if force then .Force else .Fail

/-- A filesystem path, as its ordered list of components. -/
abbrev FsPath := List String

/-- Abstract filesystem state: the list of currently existing paths.
`Path::exists` is membership. -/
abbrev FileSystem := List FsPath

/-- Predicate `Path::exists` on the abstract filesystem. -/
def pathExists (fs : FileSystem) (p : FsPath) : Bool := fs.contains p

/-- The path itself together with all its proper ancestors
(every nonempty component-list whose components lead up to `p`). -/
def selfAndAncestors (p : FsPath) : List FsPath :=
  (List.range p.length).map (fun i => p.take (i + 1))

/-- Model of `std::fs::create_dir_all`: creates the directory and every missing parent;
directories that already exist are left alone, so the call is idempotent and
always succeeds in this abstract model (no OS-level failures modelled). -/
def create_dir_all (fs : FileSystem) (p : FsPath) : FileSystem :=
  fs ++ (selfAndAncestors p).filter (fun q => !(fs.contains q))

/-- Kind of an `std::io::Error`; `safe_mkdir` only ever constructs
`ErrorKind::Other`. -/
inductive IOErrorKind where
  | other
deriving DecidableEq, Repr

/-- An `std::io::Error`: a kind and a message. -/
structure IOError where
  kind : IOErrorKind
  msg : String
deriving DecidableEq, Repr

/-- Rendering `Path::to_str` display of a component path. -/
def pathToStr (p : FsPath) : String := String.intercalate "/" p

/-- Function `safe_mkdir` (src/lib.rs): with `Fail` on an existing path, an
`ErrorKind::Other` error; otherwise `create_dir_all`. -/
def safe_mkdir (fs : FileSystem) (dir : FsPath) (policy : OverwritePolicy) :
    Except IOError FileSystem :=
  match policy, pathExists fs dir with
  | .Fail, true =>
      .error ⟨.other, pathToStr dir ++ " exists! Use --force option to overwrite."⟩
  | _, _ => .ok (create_dir_all fs dir)

/-- The `Process` struct (src/process.rs): a program name and its materialized argument
strings. -/
structure Process where
  program : String
  args : List String
deriving DecidableEq, Repr

/-- Model of `args.into_iter().map(|s| s.as_ref().to_str().expect("Invalid Unicode")).collect()`:
each incoming argument is an OS string whose text decoding either succeeded
(`some s`) or failed (`none`); the first failure aborts collection fatally. -/
def materializeArgs : List (Option String) → Option (List String)
  | [] => some []
  | none :: _ => none
  | some s :: rest => (materializeArgs rest).map (fun l => s :: l)

/-- Constructor `Process::new` (src/process.rs): `none` models the fatal
"Invalid Unicode" panic. -/
def Process.new (program : String) (args : List (Option String)) : Option Process :=
  (materializeArgs args).map (fun strs => { program := program, args := strs })

/-- The `ProcessDisplay` wrapper (src/process.rs): a process together with a verbosity. -/
structure ProcessDisplay where
  process : Process
  verbosity : Verbosity
deriving DecidableEq, Repr

/-- Method `Process::display` (src/process.rs). -/
def Process.display (p : Process) (verbosity : Verbosity) : ProcessDisplay :=
  { process := p, verbosity := verbosity }

/-- The `impl fmt::Display for ProcessDisplay` (src/process.rs lines 129-144):
write the program, then the first `display_count` arguments each preceded by a
space, then `" ..."` when brief and arguments were omitted. -/
def ProcessDisplay.fmt (d : ProcessDisplay) : String :=
  let display_count :=
    match d.verbosity with
    | .Verbose => d.process.args.length
    | .Brief max_args => max_args
  let base :=
    (d.process.args.take display_count).foldl (fun acc arg => acc ++ " " ++ arg)
      d.process.program
  if d.verbosity ≠ .Verbose ∧ display_count < d.process.args.length then
    base ++ " ..."
  else base

/-- An OS-level command handle (`std::process::Command`): program, arguments,
and the optional anonymous-pipe bindings of its standard input (the read end of
pipe `k`) and standard output (the write end of pipe `k`). -/
structure Cmd where
  program : String
  args : List String
  stdinPipe : Option Nat
  stdoutPipe : Option Nat
deriving DecidableEq, Repr

/-- Method `Process::command` (src/process.rs): a fresh command handle with program
and arguments bound and no redirection. -/
def Process.command (p : Process) : Cmd :=
  { program := p.program, args := p.args, stdinPipe := none, stdoutPipe := none }

/-- Method `Process::execute` (src/process.rs): `self.command().status()`; running a
handle to completion is the OS's business, abstracted as a status oracle. -/
def Process.execute {σ : Type} (status : Cmd → σ) (p : Process) : σ :=
  status p.command

/-- The `ProcessPipeline` struct (src/process.rs). -/
structure ProcessPipeline where
  processes : List Process
deriving DecidableEq, Repr

/-- Constructor `ProcessPipeline::new` (src/process.rs). -/
def ProcessPipeline.new (processes : List Process) : ProcessPipeline :=
  { processes := processes }

/-- The `PipelineDisplay` wrapper (src/process.rs). -/
structure PipelineDisplay where
  pipeline : ProcessPipeline
  verbosity : Verbosity
deriving DecidableEq, Repr

/-- Method `ProcessPipeline::display` (src/process.rs). -/
def ProcessPipeline.display (pl : ProcessPipeline) (verbosity : Verbosity) :
    PipelineDisplay :=
  { pipeline := pl, verbosity := verbosity }

/-- The `impl fmt::Display for PipelineDisplay` (src/process.rs lines 260-270):
if nonempty, write the first stage's display, then for every later stage a
line break, a tab, a pipe marker, and that stage's display. -/
def PipelineDisplay.fmt (d : PipelineDisplay) : String :=
  match d.pipeline.processes with
  | [] => ""
  | p :: rest =>
      rest.foldl (fun acc q => acc ++ "\n\t| " ++ (q.display d.verbosity).fmt)
        (p.display d.verbosity).fmt

/-- Rust `slice::windows(n)`: all contiguous length-`n` sub-slices, in order. -/
def windows (n : Nat) (l : List α) : List (List α) :=
  (List.range (l.length + 1 - n)).map (fun i => (l.drop i).take n)

/-- The evolving state of the wiring loop in `ProcessPipeline::pipe`: the
command handles, the indices spawned so far in spawn order, and the index the
next allocated pipe will get. -/
structure PipeState where
  cmds : List Cmd
  spawned : List Nat
  nextPipe : Nat
deriving DecidableEq, Repr

/-- Body of the wiring loop for the window `[first, second]`: allocate one
anonymous pipe `k`, bind `cmds[first]`'s stdout to its write end, bind
`cmds[second]`'s stdin to its read end, and spawn `cmds[first]`. -/
def wirePair (st : PipeState) (first second : Nat) : PipeState :=
  { cmds :=
      List.modify (fun c => { c with stdinPipe := some st.nextPipe }) second
        (List.modify (fun c => { c with stdoutPipe := some st.nextPipe }) first st.cmds)
    spawned := st.spawned ++ [first]
    nextPipe := st.nextPipe + 1 }

/-- The ways `ProcessPipeline::pipe` can abort. -/
inductive PipeErr where
  /-- `assert!(self.processes.len() > 1)` fails. -/
  | assertionFailure
  /-- the catch-all match arm: `panic!("Programming error")`. -/
  | programmingError
  /-- `cmds.pop().expect("No last element")` fails. -/
  | noLastElement
deriving DecidableEq, Repr

/-- The wiring loop of `ProcessPipeline::pipe` over the list of windows. -/
def pipeLoop : List (List Nat) → PipeState → Except PipeErr PipeState
  | [], st => .ok st
  | w :: ws, st =>
      match w with
      | [first, second] => pipeLoop ws (wirePair st first second)
      | _ => .error .programmingError

/-- What `ProcessPipeline::pipe` produces: the returned (last, un-spawned)
command handle, plus the observable effects — the final wiring of every
handle and the spawn order. -/
structure PipeResult where
  returned : Cmd
  finalCmds : List Cmd
  spawned : List Nat
deriving DecidableEq, Repr

/-- Method `ProcessPipeline::pipe` (src/process.rs lines 219-242): assert there are
at least two stages, build one command handle per stage, run the wiring loop
over `windows 2` of the index sequence, and pop the last handle. -/
def ProcessPipeline.pipe (pl : ProcessPipeline) : Except PipeErr PipeResult :=
  if pl.processes.length > 1 then
    let cmds := pl.processes.map Process.command
    match pipeLoop (windows 2 (List.range cmds.length)) ⟨cmds, [], 0⟩ with
    | .ok st =>
        match st.cmds.getLast? with
        | some c => .ok { returned := c, finalCmds := st.cmds, spawned := st.spawned }
        | none => .error .noLastElement
    | .error e => .error e
  else .error .assertionFailure

/-- Method `ProcessPipeline::execute` (src/process.rs lines 245-247):
`self.pipe().status()`, with running-to-completion abstracted as a status
oracle applied to the returned handle. -/
def ProcessPipeline.execute {σ : Type} (status : Cmd → σ) (pl : ProcessPipeline) :
    Except PipeErr σ :=
  (pl.pipe).map (fun r => status r.returned)

/-- The initial command handles built by `pipe`, one per stage. -/
def initCmds (pl : ProcessPipeline) : List Cmd := pl.processes.map Process.command

/-- The wiring-loop state after processing the first `m` adjacent pairs. -/
def loopState (pl : ProcessPipeline) (m : Nat) : PipeState :=
  (List.range m).foldl (fun st i => wirePair st i (i + 1)) ⟨initCmds pl, [], 0⟩

/-- Specification of a successful `pipe` call (claim C1): the pairs are wired
in order with one fresh pipe per pair — pair `i` gets pipe `i`, stage `i`'s
stdout bound to its write end and stage `i + 1`'s stdin to its read end —
stages `0 .. len - 2` are spawned in pipeline order, and the returned handle
is the last stage's, un-spawned, stdin connected to the chain, stdout
unbound. -/
def PipeSpec (pl : ProcessPipeline) : Prop :=
  ∃ r, pl.pipe = .ok r ∧
    r.spawned = List.range (pl.processes.length - 1) ∧
    r.returned.stdinPipe = some (pl.processes.length - 2) ∧
    r.returned.stdoutPipe = none ∧
    (pl.processes.length - 1) ∉ r.spawned ∧
    (∃ pLast, pl.processes.getLast? = some pLast ∧
      r.returned.program = pLast.program ∧ r.returned.args = pLast.args) ∧
    r.finalCmds.length = pl.processes.length ∧
    (∀ i : Nat, (r.finalCmds[i]?).map Cmd.program = (pl.processes[i]?).map Process.program ∧
      (r.finalCmds[i]?).map Cmd.args = (pl.processes[i]?).map Process.args) ∧
    (∀ i : Nat, i + 1 < pl.processes.length →
      (r.finalCmds[i]?).map Cmd.stdoutPipe = some (some i) ∧
      (r.finalCmds[i + 1]?).map Cmd.stdinPipe = some (some i))

/-- Specification of `execute` (claim C5): it is exactly `pipe` followed by
running the returned handle, its result is the status of the last stage's
handle only, and it is invariant under any change of the statuses of the
other (earlier) handles. -/
def ExecuteSpec (pl : ProcessPipeline) : Prop :=
  ∀ (σ : Type) (status : Cmd → σ), ∃ r, pl.pipe = .ok r ∧
    pl.execute status = .ok (status r.returned) ∧
    (∃ pLast, pl.processes.getLast? = some pLast ∧
      r.returned.program = pLast.program ∧ r.returned.args = pLast.args) ∧
    ∀ status2 : Cmd → σ, status2 r.returned = status r.returned →
      pl.execute status2 = pl.execute status

/-- A concrete three-stage pipeline used to witness the pipeline theorems. -/
def samplePipeline : ProcessPipeline :=
  ProcessPipeline.new
    [{ program := "echo", args := ["-e", "a\nb\nc"] },
     { program := "grep", args := ["b"] },
     { program := "wc", args := ["-l"] }]

/-- A concrete two-stage pipeline used to witness the execute theorem. -/
def samplePipeline2 : ProcessPipeline :=
  ProcessPipeline.new
    [{ program := "echo", args := ["-e", "a\nb\nc"] },
     { program := "grep", args := ["b"] }]

/-! ### String helper lemmas -/

theorem foldl_append_shift (l : List String) :
    ∀ s t : String,
      l.foldl (fun r a => r ++ a) (s ++ t) = s ++ l.foldl (fun r a => r ++ a) t := by
  induction l with
  | nil => intro s t; rfl
  | cons a l ih =>
      intro s t
      simp only [List.foldl_cons]
      rw [String.append_assoc, ih]

theorem join_cons (x : String) (xs : List String) :
    String.join (x :: xs) = x ++ String.join xs := by
  show xs.foldl (fun r a => r ++ a) ("" ++ x) = x ++ String.join xs
  have h := foldl_append_shift xs x ""
  rw [String.append_empty] at h
  rw [String.empty_append, h]
  rfl

theorem foldl_space_args (l : List String) :
    ∀ s : String,
      l.foldl (fun acc a => acc ++ " " ++ a) s
        = s ++ String.join (l.map (fun a => " " ++ a)) := by
  induction l with
  | nil => intro s; simp [String.join, List.foldl_nil]
  | cons a l ih =>
      intro s
      simp only [List.foldl_cons, List.map_cons]
      rw [ih, join_cons]
      simp [String.append_assoc]

/-! ### Display theorems (claims C3, C4, C8) -/

/-- C3: for every process descriptor and every `n < len(args)`, the display
under `Brief(n)` is the program name, then exactly the first `n` arguments
each preceded by one space, then the literal suffix `" ..."`. -/
theorem display_brief_truncates (p : Process) (n : Nat) (h : n < p.args.length) :
    (p.display (.Brief n)).fmt
      = p.program ++ String.join ((p.args.take n).map (fun a => " " ++ a)) ++ " ..." := by
  unfold Process.display ProcessDisplay.fmt
  simp only
  rw [if_pos ⟨by simp, h⟩, foldl_space_args]

theorem display_brief_truncates_witness :
    (0 : Nat) < (Process.mk "ls" ["-l", "/path/to/dir"]).args.length ∧
      ((Process.mk "ls" ["-l", "/path/to/dir"]).display (.Brief 1)).fmt = "ls -l ..." := by
  refine ⟨by decide, ?_⟩
  rw [display_brief_truncates (Process.mk "ls" ["-l", "/path/to/dir"]) 1 (by decide)]
  rfl

/-- C4: for every process descriptor and every `n ≥ len(args)`, the display
under `Brief(n)` equals the display under `Verbose`, and the `Verbose` display
is the program followed by all arguments with no truncation marker. -/
theorem display_brief_ge_eq_verbose (p : Process) (n : Nat) (h : p.args.length ≤ n) :
    (p.display (.Brief n)).fmt = (p.display .Verbose).fmt ∧
      (p.display .Verbose).fmt
        = p.program ++ String.join (p.args.map (fun a => " " ++ a)) := by
  unfold Process.display ProcessDisplay.fmt
  simp only
  constructor
  · rw [if_neg (by omega), if_neg (by simp), List.take_of_length_le h, List.take_length]
  · rw [if_neg (by simp), List.take_length, foldl_space_args]

theorem display_brief_ge_eq_verbose_witness :
    (Process.mk "ls" ["-l", "/path/to/dir"]).args.length ≤ 2 ∧
      ((Process.mk "ls" ["-l", "/path/to/dir"]).display (.Brief 2)).fmt
        = ((Process.mk "ls" ["-l", "/path/to/dir"]).display .Verbose).fmt := by
  refine ⟨by decide, ?_⟩
  exact (display_brief_ge_eq_verbose (Process.mk "ls" ["-l", "/path/to/dir"]) 2 (by decide)).1

theorem intercalate_go_eq_foldl (sep : String) :
    ∀ (l : List String) (acc : String),
      String.intercalate.go acc sep l = l.foldl (fun r x => r ++ sep ++ x) acc := by
  intro l
  induction l with
  | nil => intro acc; rfl
  | cons a l ih => intro acc; rw [String.intercalate.go, ih, List.foldl_cons]

/-- C8: for every pipeline and verbosity, the pipeline display is the
stage displays in stage order, joined by the exact separator `"\n\t| "`, with
the same verbosity applied to every stage. -/
theorem pipeline_display_intercalate (pl : ProcessPipeline) (v : Verbosity) :
    (pl.display v).fmt
      = String.intercalate "\n\t| "
          (pl.processes.map (fun p => (p.display v).fmt)) := by
  unfold ProcessPipeline.display PipelineDisplay.fmt
  cases hp : pl.processes with
  | nil => rfl
  | cons p rest =>
      simp only [List.map_cons]
      show _ = String.intercalate.go (p.display v).fmt "\n\t| "
        (rest.map (fun q => (q.display v).fmt))
      rw [intercalate_go_eq_foldl, List.foldl_map]

/-! ### Construction and encoding (claims C6, C9) -/

theorem materializeArgs_eq_none_iff :
    ∀ args : List (Option String), materializeArgs args = none ↔ none ∈ args := by
  intro args
  induction args with
  | nil => simp [materializeArgs]
  | cons a rest ih =>
      cases a with
      | none => simp [materializeArgs]
      | some s =>
          simp only [materializeArgs, Option.map_eq_none', List.mem_cons, ih]
          simp

theorem materializeArgs_map_some :
    ∀ l : List String, materializeArgs (l.map some) = some l := by
  intro l
  induction l with
  | nil => rfl
  | cons s rest ih => simp [materializeArgs, ih]

/-- C6: `Process::new` fails fatally exactly when some argument's text
decoding fails, and otherwise yields the descriptor holding the program name
and the materialized ordered argument strings. -/
theorem new_validates_encoding (program : String) (args : List (Option String)) :
    (Process.new program args = none ↔ none ∈ args) ∧
      ∀ l : List String, args = l.map some →
        Process.new program args = some { program := program, args := l } := by
  constructor
  · unfold Process.new
    rw [Option.map_eq_none']
    exact materializeArgs_eq_none_iff args
  · intro l hl
    subst hl
    unfold Process.new
    rw [materializeArgs_map_some]
    rfl

theorem new_validates_encoding_witness :
    Process.new "cp" [some "a", none] = none ∧
      Process.new "cp" [some "a", some "b"] = some { program := "cp", args := ["a", "b"] } := by
  constructor
  · exact (new_validates_encoding "cp" [some "a", none]).1.mpr (by simp)
  · exact (new_validates_encoding "cp" [some "a", some "b"]).2 ["a", "b"] rfl

/-- C9, counterexample: construction does not enforce a non-empty program
string — `Process::new("", ...)` succeeds and produces a descriptor whose
program string is empty. -/
theorem new_empty_program_accepted :
    Process.new "" [] = some { program := "", args := [] } ∧
      ({ program := "", args := [] } : Process).program = "" :=
  ⟨rfl, rfl⟩

/-- C9, amended: a constructed descriptor holds exactly the program string
given (which may be empty — non-emptiness is not checked) and the materialized
arguments, and the later operations only read it: the display wrapper stores
the descriptor unchanged, and the generated command handle carries the same
program and argument list with no redirection added. -/
theorem descriptor_preserved (program : String) (args : List (Option String))
    (p : Process) (h : Process.new program args = some p) :
    p.program = program ∧
      (∃ l, materializeArgs args = some l ∧ p.args = l) ∧
      (∀ v, (p.display v).process = p) ∧
      p.command.program = p.program ∧ p.command.args = p.args ∧
      p.command.stdinPipe = none ∧ p.command.stdoutPipe = none := by
  unfold Process.new at h
  cases hm : materializeArgs args with
  | none => rw [hm] at h; exact absurd h (by simp)
  | some l =>
      rw [hm] at h
      simp only [Option.map_some', Option.some.injEq] at h
      subst h
      exact ⟨rfl, ⟨l, rfl, rfl⟩, fun _ => rfl, rfl, rfl, rfl, rfl⟩

theorem descriptor_preserved_witness :
    Process.new "echo" [some "hi"] = some { program := "echo", args := ["hi"] } ∧
      ({ program := "echo", args := ["hi"] } : Process).program = "echo" ∧
      ({ program := "echo", args := ["hi"] } : Process).command.args = ["hi"] := by
  refine ⟨rfl, (descriptor_preserved "echo" [some "hi"] _ rfl).1, ?_⟩
  have h := descriptor_preserved "echo" [some "hi"]
    { program := "echo", args := ["hi"] } rfl
  exact h.2.2.2.2.1.trans rfl

/-! ### Pipe precondition (claim C2) -/

/-- C2: with fewer than two stages, `pipe` fails the fatal precondition
assertion — it aborts rather than returning a command handle or silently
doing nothing. -/
theorem pipe_asserts_two_stages (pl : ProcessPipeline)
    (h : pl.processes.length < 2) :
    pl.pipe = .error .assertionFailure := by
  unfold ProcessPipeline.pipe
  rw [if_neg (by omega)]

theorem pipe_asserts_two_stages_witness :
    (ProcessPipeline.new [{ program := "ls", args := [] }]).processes.length < 2 ∧
      (ProcessPipeline.new [{ program := "ls", args := [] }]).pipe
        = .error .assertionFailure :=
  ⟨by decide, pipe_asserts_two_stages _ (by decide)⟩

/-! ### Directory creation (claim C7) -/

/-- C7: `safe_mkdir` with `Fail` on an existing path always returns the same
`ErrorKind::Other` error (and, the filesystem being untouched, a repeated call
fails identically); with `Force` on a non-existent path it succeeds, creates
the directory together with all its ancestors, and a second `Force` call
succeeds again and changes nothing (idempotence). -/
theorem mem_create_dir_all (fs : FileSystem) (p q : FsPath) :
    q ∈ create_dir_all fs p ↔ q ∈ fs ∨ q ∈ selfAndAncestors p := by
  unfold create_dir_all
  simp only [List.mem_append, List.mem_filter, Bool.not_eq_true', List.contains_eq_any_beq]
  constructor
  · rintro (h | ⟨h, _⟩)
    · exact Or.inl h
    · exact Or.inr h
  · rintro (h | h)
    · exact Or.inl h
    · by_cases hm : q ∈ fs
      · exact Or.inl hm
      · refine Or.inr ⟨h, ?_⟩
        simp only [List.any_eq_false, beq_iff_eq]
        intro x hx hqx
        exact hm (hqx ▸ hx)

theorem safe_mkdir_force (fs : FileSystem) (dir : FsPath) :
    safe_mkdir fs dir .Force = .ok (create_dir_all fs dir) := by
  unfold safe_mkdir
  cases pathExists fs dir <;> rfl

theorem create_dir_all_idem (fs : FileSystem) (p : FsPath) :
    create_dir_all (create_dir_all fs p) p = create_dir_all fs p := by
  have hfilter : (selfAndAncestors p).filter
      (fun q => !((create_dir_all fs p).contains q)) = [] := by
    rw [List.filter_eq_nil_iff]
    intro q hq
    simp only [Bool.not_eq_true', Bool.not_eq_false, List.contains_eq_any_beq,
      List.any_eq_true]
    exact ⟨q, (mem_create_dir_all fs p q).mpr (Or.inr hq), beq_self_eq_true q⟩
  conv_lhs => rw [create_dir_all, hfilter]
  rw [List.append_nil]

theorem safe_mkdir_policy (fs : FileSystem) (dir : FsPath) :
    (pathExists fs dir = true →
      safe_mkdir fs dir .Fail
        = .error ⟨.other, pathToStr dir ++ " exists! Use --force option to overwrite."⟩) ∧
    (pathExists fs dir = false →
      ∃ fs₁, safe_mkdir fs dir .Force = .ok fs₁ ∧
        (∀ q ∈ selfAndAncestors dir, pathExists fs₁ q = true) ∧
        safe_mkdir fs₁ dir .Force = .ok fs₁) := by
  constructor
  · intro h
    unfold safe_mkdir
    rw [h]
  · intro _
    refine ⟨create_dir_all fs dir, safe_mkdir_force fs dir, ?_, ?_⟩
    · intro q hq
      unfold pathExists
      simp only [List.contains_eq_any_beq, List.any_eq_true]
      exact ⟨q, (mem_create_dir_all fs dir q).mpr (Or.inr hq), beq_self_eq_true q⟩
    · rw [safe_mkdir_force, create_dir_all_idem]

theorem safe_mkdir_policy_witness :
    (pathExists [["tmp"]] ["tmp"] = true ∧
      safe_mkdir [["tmp"]] ["tmp"] .Fail
        = .error ⟨.other, "tmp exists! Use --force option to overwrite."⟩) ∧
    (pathExists [] ["a", "b"] = false ∧
      ∃ fs₁, safe_mkdir [] ["a", "b"] .Force = .ok fs₁ ∧
        (∀ q ∈ selfAndAncestors ["a", "b"], pathExists fs₁ q = true) ∧
        safe_mkdir fs₁ ["a", "b"] .Force = .ok fs₁) :=
  ⟨⟨by decide, (safe_mkdir_policy [["tmp"]] ["tmp"]).1 (by decide)⟩,
   ⟨by decide, (safe_mkdir_policy [] ["a", "b"]).2 (by decide)⟩⟩

/-! ### Pipeline wiring (claims C1, C5, C10) -/

theorem drop_range_take_two (n i : Nat) (h : i + 1 < n) :
    ((List.range n).drop i).take 2 = [i, i + 1] := by
  apply List.ext_getElem?
  intro j
  match j with
  | 0 =>
      rw [List.getElem?_take_of_lt (by omega), List.getElem?_drop, Nat.add_zero,
        List.getElem?_range (by omega)]
      rfl
  | 1 =>
      rw [List.getElem?_take_of_lt (by omega), List.getElem?_drop,
        List.getElem?_range (by omega)]
      rfl
  | (j + 2) =>
      rw [List.getElem?_take_eq_none (by omega)]
      rfl

theorem windows_two_range (n : Nat) :
    windows 2 (List.range n) = (List.range (n - 1)).map (fun i => [i, i + 1]) := by
  unfold windows
  rw [List.length_range]
  have he : n + 1 - 2 = n - 1 := by omega
  rw [he]
  apply List.map_congr_left
  intro i hi
  rw [List.mem_range] at hi
  exact drop_range_take_two n i (by omega)

theorem pipeLoop_pairs :
    ∀ (ps : List Nat) (st : PipeState),
      pipeLoop (ps.map (fun i => [i, i + 1])) st
        = .ok (ps.foldl (fun s i => wirePair s i (i + 1)) st) := by
  intro ps
  induction ps with
  | nil => intro st; rfl
  | cons i ps ih =>
      intro st
      rw [List.map_cons, List.foldl_cons]
      show pipeLoop _ (wirePair st i (i + 1)) = _
      exact ih _

theorem loopState_zero (pl : ProcessPipeline) :
    loopState pl 0 = ⟨initCmds pl, [], 0⟩ := rfl

theorem loopState_succ (pl : ProcessPipeline) (m : Nat) :
    loopState pl (m + 1) = wirePair (loopState pl m) m (m + 1) := by
  unfold loopState
  rw [List.range_succ, List.foldl_append, List.foldl_cons, List.foldl_nil]

theorem loopState_spec (pl : ProcessPipeline) :
    ∀ m, m < pl.processes.length →
      (loopState pl m).cmds.length = pl.processes.length ∧
      (loopState pl m).nextPipe = m ∧
      (loopState pl m).spawned = List.range m ∧
      ∀ j : Nat, (loopState pl m).cmds[j]?
        = (pl.processes[j]?).map (fun p =>
            { program := p.program, args := p.args,
              stdinPipe := if 1 ≤ j ∧ j ≤ m then some (j - 1) else none,
              stdoutPipe := if j < m then some j else none }) := by
  intro m
  induction m with
  | zero =>
      intro _
      refine ⟨by simp [loopState_zero, initCmds], rfl, rfl, ?_⟩
      intro j
      rw [loopState_zero]
      show (initCmds pl)[j]? = _
      unfold initCmds
      rw [List.getElem?_map]
      cases pl.processes[j]? with
      | none => rfl
      | some p =>
          simp only [Option.map_some']
          unfold Process.command
          rw [if_neg (by omega), if_neg (by omega)]
  | succ m ih =>
      intro hm1
      obtain ⟨hlen, hnext, hsp, hget⟩ := ih (by omega)
      rw [loopState_succ]
      unfold wirePair
      simp only [hnext]
      refine ⟨by simp [hlen], by trivial, by rw [hsp, List.range_succ], ?_⟩
      intro j
      by_cases hj2 : j = m + 1
      · subst hj2
        rw [List.getElem?_modify_eq, List.getElem?_modify_ne _ _ (by omega),
          hget (m + 1)]
        cases pl.processes[m + 1]? with
        | none => rfl
        | some p =>
            simp only [Option.map_some']
            rw [if_neg (show ¬(1 ≤ m + 1 ∧ m + 1 ≤ m) by omega),
              if_neg (show ¬(m + 1 < m) by omega),
              if_pos (show 1 ≤ m + 1 ∧ m + 1 ≤ m + 1 by omega),
              if_neg (show ¬(m + 1 < m + 1) by omega)]
            simp
      · by_cases hj1 : j = m
        · subst hj1
          rw [List.getElem?_modify_ne _ _ (by omega), List.getElem?_modify_eq,
            hget j]
          cases pl.processes[j]? with
          | none => rfl
          | some p =>
              simp only [Option.map_some']
              by_cases h1 : 1 ≤ j
              · rw [if_pos (show 1 ≤ j ∧ j ≤ j by omega),
                  if_neg (show ¬(j < j) by omega),
                  if_pos (show 1 ≤ j ∧ j ≤ j + 1 by omega),
                  if_pos (show j < j + 1 by omega)]
                simp
              · rw [if_neg (show ¬(1 ≤ j ∧ j ≤ j) by omega),
                  if_neg (show ¬(j < j) by omega),
                  if_neg (show ¬(1 ≤ j ∧ j ≤ j + 1) by omega),
                  if_pos (show j < j + 1 by omega)]
                simp
        · rw [List.getElem?_modify_ne _ _ (by omega),
            List.getElem?_modify_ne _ _ (by omega), hget j]
          cases pl.processes[j]? with
          | none => rfl
          | some p =>
              simp only [Option.map_some']
              by_cases hin : 1 ≤ j ∧ j ≤ m
              · rw [if_pos hin, if_pos (show 1 ≤ j ∧ j ≤ m + 1 by omega)]
                by_cases hlt : j < m
                · rw [if_pos hlt, if_pos (show j < m + 1 by omega)]
                · rw [if_neg hlt, if_neg (show ¬(j < m + 1) by omega)]
              · rw [if_neg hin, if_neg (show ¬(1 ≤ j ∧ j ≤ m + 1) by omega)]
                by_cases hlt : j < m
                · rw [if_pos hlt, if_pos (show j < m + 1 by omega)]
                · rw [if_neg hlt, if_neg (show ¬(j < m + 1) by omega)]

theorem pipe_eq_ok (pl : ProcessPipeline) (h : 2 ≤ pl.processes.length)
    (st : PipeState)
    (hloop : pipeLoop (windows 2 (List.range (pl.processes.map Process.command).length))
      ⟨pl.processes.map Process.command, [], 0⟩ = .ok st)
    (c : Cmd) (hlast : st.cmds.getLast? = some c) :
    pl.pipe = .ok { returned := c, finalCmds := st.cmds, spawned := st.spawned } := by
  unfold ProcessPipeline.pipe
  rw [if_pos (by omega)]
  simp only [hloop, hlast]

theorem pipeLoop_range_ok (pl : ProcessPipeline) :
    pipeLoop (windows 2 (List.range (pl.processes.map Process.command).length))
        ⟨pl.processes.map Process.command, [], 0⟩
      = .ok (loopState pl (pl.processes.length - 1)) := by
  rw [List.length_map, windows_two_range, pipeLoop_pairs]
  rfl

theorem pipe_spec_aux (pl : ProcessPipeline) (h : 2 ≤ pl.processes.length) :
    PipeSpec pl := by
  obtain ⟨hlen, -, hsp, hget⟩ :=
    loopState_spec pl (pl.processes.length - 1) (by omega)
  set st := loopState pl (pl.processes.length - 1) with hst
  have hplast : ∃ pLast, pl.processes[pl.processes.length - 1]? = some pLast := by
    rw [List.getElem?_eq_getElem (by omega)]
    exact ⟨_, rfl⟩
  obtain ⟨pLast, hpLast⟩ := hplast
  have hcval := hget (pl.processes.length - 1)
  rw [hpLast] at hcval
  simp only [Option.map_some'] at hcval
  have hlast : st.cmds.getLast? = some
      { program := pLast.program, args := pLast.args,
        stdinPipe := if 1 ≤ pl.processes.length - 1 ∧
            pl.processes.length - 1 ≤ pl.processes.length - 1
          then some (pl.processes.length - 1 - 1) else none,
        stdoutPipe := if pl.processes.length - 1 < pl.processes.length - 1
          then some (pl.processes.length - 1) else none } := by
    rw [List.getLast?_eq_getElem?, hlen, hcval]
  refine ⟨{ returned := _, finalCmds := st.cmds, spawned := st.spawned },
    pipe_eq_ok pl h st (pipeLoop_range_ok pl) _ hlast, ?_, ?_, ?_, ?_, ?_, ?_, ?_, ?_⟩
  · exact hsp
  · simp only
    rw [if_pos (by omega)]
    exact congrArg some (by omega)
  · simp only
    rw [if_neg (by omega)]
  · rw [hsp, List.mem_range]
    omega
  · refine ⟨pLast, ?_, by simp, by simp⟩
    rw [List.getLast?_eq_getElem?, hpLast]
  · exact hlen
  · intro i
    rw [hget i]
    cases pl.processes[i]? with
    | none => simp
    | some p => simp
  · intro i hi
    constructor
    · rw [hget i, List.getElem?_eq_getElem (show i < pl.processes.length by omega)]
      simp only [Option.map_some']
      rw [if_pos (by omega)]
    · rw [hget (i + 1),
        List.getElem?_eq_getElem (show i + 1 < pl.processes.length by omega)]
      simp only [Option.map_some']
      rw [if_pos (by omega)]
      simp

/-- C1: for every pipeline with at least two stages, `pipe` wires each
adjacent pair `(i, i + 1)` in order with its own anonymous pipe (stage `i`'s
stdout to the write end, stage `i + 1`'s stdin to the read end), spawns
stages `0 .. len - 2` strictly in pipeline order, and returns the last
stage's command handle un-spawned, with stdin connected to the chain and
stdout unbound. -/
theorem pipe_wires_chain (pl : ProcessPipeline) (h : 2 ≤ pl.processes.length) :
    PipeSpec pl :=
  pipe_spec_aux pl h

theorem pipe_wires_chain_witness :
    2 ≤ samplePipeline.processes.length ∧ PipeSpec samplePipeline :=
  ⟨by decide, pipe_wires_chain samplePipeline (by decide)⟩

/-- C10: the catch-all `panic!("Programming error")` arm of the wiring loop
is unreachable — for a pipeline of any stage count `pipe` never aborts with
it, because every window `slice::windows(2)` yields over the index sequence
has length exactly 2. -/
theorem pipe_catchall_unreachable :
    (∀ pl : ProcessPipeline, pl.pipe ≠ .error .programmingError) ∧
    (∀ n : Nat, ∀ w ∈ windows 2 (List.range n), w.length = 2) := by
  constructor
  · intro pl
    unfold ProcessPipeline.pipe
    by_cases h : pl.processes.length > 1
    · rw [if_pos h]
      simp only [pipeLoop_range_ok pl]
      cases hl : (loopState pl (pl.processes.length - 1)).cmds.getLast? <;> simp
    · rw [if_neg h]
      simp
  · intro n w hw
    rw [windows_two_range] at hw
    rw [List.mem_map] at hw
    obtain ⟨i, -, rfl⟩ := hw
    rfl

theorem pipe_catchall_unreachable_witness :
    [2, 3] ∈ windows 2 (List.range 5) ∧ ([2, 3] : List Nat).length = 2 :=
  ⟨by decide, pipe_catchall_unreachable.2 5 [2, 3] (by decide)⟩

/-- C5: for every pipeline with at least two stages, `execute` is exactly
`pipe` followed by running the returned handle to completion: its result is
the exit status of the last stage's handle only, and it does not observe any
earlier stage's status (changing the statuses of all other handles leaves
the result unchanged). -/
theorem execute_runs_last_stage (pl : ProcessPipeline)
    (h : 2 ≤ pl.processes.length) : ExecuteSpec pl := by
  intro σ status
  obtain ⟨r, hr, -, -, -, -, ⟨pLast, hpl, hprog, hargs⟩, -, -, -⟩ := pipe_spec_aux pl h
  refine ⟨r, hr, ?_, ⟨pLast, hpl, hprog, hargs⟩, ?_⟩
  · unfold ProcessPipeline.execute
    rw [hr]
    rfl
  · intro status2 heq
    unfold ProcessPipeline.execute
    rw [hr]
    show Except.ok (status2 r.returned) = Except.ok (status r.returned)
    rw [heq]

theorem execute_runs_last_stage_witness :
    2 ≤ samplePipeline2.processes.length ∧ ExecuteSpec samplePipeline2 :=
  ⟨by decide, execute_runs_last_stage samplePipeline2 (by decide)⟩

end Experiment
